import Mathlib

/-!
Shallow embedding of the `financial-toolkits` Python package over the reals.

Python `float` values are modelled as `ℝ` (exact real arithmetic), integer
arguments as `ℕ`, a `raise ValueError(...)` as the `none` branch of an
`Option` result, and `float("inf")` as `⊤ : EReal`.  Each definition mirrors
one function of the source, statement for statement.
-/

namespace FinancialToolkits

/-- Mirrors the frozen dataclass `AmortizationRow` of `loan.py`. -/
structure AmortizationRow where
  month : ℕ
  payment : ℝ
  principal_part : ℝ
  interest_part : ℝ
  remaining_balance : ℝ
  cumulative_interest : ℝ
  cumulative_principal : ℝ

/-- Mirrors the frozen dataclass `LoanResult` of `loan.py`. -/
structure LoanResult where
  principal : ℝ
  annual_rate : ℝ
  months : ℕ
  monthly_payment : ℝ
  total_paid : ℝ
  total_interest : ℝ
  interest_ratio : ℝ
  schedule : List AmortizationRow

namespace LoanAmortization

/-- `LoanAmortization.monthly_payment` of `loan.py`: raises (returns `none`)
when `principal ≤ 0` or `months < 1`; otherwise the annuity payment, with the
interest-free `rm = 0` edge case. -/
noncomputable def monthly_payment (principal annual_rate : ℝ) (months : ℕ) :
    Option ℝ :=
  if principal ≤ 0 then none
  else if months < 1 then none
  else
    let rm := annual_rate / 12
    if rm = 0 then some (principal / months)
    else some (principal * (rm * (1 + rm) ^ months) / ((1 + rm) ^ months - 1))

/-- The loop-carried state of the `for k in range(1, months+1)` loop in
`LoanAmortization.schedule`: the (possibly corrected) payment, the running
balance and the two cumulative accumulators. -/
structure LoanState where
  payment : ℝ
  balance : ℝ
  cum_interest : ℝ
  cum_principal : ℝ

/-- One iteration of the schedule loop of `loan.py` (month `k`): interest on
the balance, principal portion with the overshoot clamp
(`if princ > balance: princ = balance; payment = princ + interest`), the
balance update with the floor at zero (`if balance < 0: balance = 0.0`), and
the accumulator updates.  Returns the appended row and the next state. -/
noncomputable def loanStep (rm : ℝ) (s : LoanState) (k : ℕ) :
    AmortizationRow × LoanState :=
  let interest := s.balance * rm
  let princ0 := s.payment - interest
  let princ := if princ0 > s.balance then s.balance else princ0
  let payment := if princ0 > s.balance then princ + interest else s.payment
  let balance0 := s.balance - princ
  let balance := if balance0 < 0 then 0 else balance0
  (⟨k, payment, princ, interest, balance,
      s.cum_interest + interest, s.cum_principal + princ⟩,
   ⟨payment, balance, s.cum_interest + interest, s.cum_principal + princ⟩)

/-- The schedule loop of `loan.py`, run for `m` further months starting at
month index `k` in state `s`: the list of rows appended and the final state. -/
noncomputable def loanLoop (rm : ℝ) : LoanState → ℕ → ℕ →
    List AmortizationRow × LoanState
  | s, _, 0 => ([], s)
  | s, k, m + 1 =>
    let r := loanStep rm s k
    let rest := loanLoop rm r.2 (k + 1) m
    (r.1 :: rest.1, rest.2)

/-- `LoanAmortization.schedule` of `loan.py`: the full amortization table.
Propagates the `ValueError` of `monthly_payment` (as `none`). -/
noncomputable def schedule (principal annual_rate : ℝ) (months : ℕ) :
    Option LoanResult :=
  (monthly_payment principal annual_rate months).map fun payment =>
    let rm := annual_rate / 12
    let run := loanLoop rm ⟨payment, principal, 0, 0⟩ 1 months
    { principal := principal
      annual_rate := annual_rate
      months := months
      monthly_payment := ((run.1.head?).map (fun r => r.payment)).getD 0
      total_paid := (run.1.map (fun r => r.payment)).sum
      total_interest := run.2.cum_interest
      interest_ratio :=
        if 0 < principal then run.2.cum_interest / principal else 0
      schedule := run.1 }

/-- `LoanAmortization.affordable_principal` of `loan.py`: the inverse annuity
problem `P = M·[(1+rm)^N − 1]/[rm·(1+rm)^N]`, with the `rm = 0` edge case. -/
noncomputable def affordable_principal (monthly_budget annual_rate : ℝ)
    (months : ℕ) : ℝ :=
  let rm := annual_rate / 12
  if rm = 0 then monthly_budget * months
  else monthly_budget * (((1 + rm) ^ months - 1) / (rm * (1 + rm) ^ months))

end LoanAmortization

/-- Mirrors the frozen dataclass `TimeValueResult` of `time_value.py`. -/
structure TimeValueResult where
  present_value : ℝ
  future_value : ℝ
  rate : ℝ
  years : ℝ
  growth_factor : ℝ
  discount_factor : ℝ

namespace TimeValue

/-- `TimeValue.future_value` of `time_value.py`: `FV = PV·(1+r)^t` (real
exponent, Python `**`). -/
noncomputable def future_value (pv rate years : ℝ) : ℝ :=
  pv * (1 + rate) ^ years

/-- `TimeValue.present_value` of `time_value.py`: `PV = FV/(1+r)^t`. -/
noncomputable def present_value (fv rate years : ℝ) : ℝ :=
  fv / (1 + rate) ^ years

/-- `TimeValue.analyze` of `time_value.py`: one growth factor
`gf = (1+rate)^years`, the given amount discounted and projected. -/
noncomputable def analyze (amount rate years : ℝ) : TimeValueResult :=
  let gf := (1 + rate) ^ years
  { present_value := amount / gf
    future_value := amount * gf
    rate := rate
    years := years
    growth_factor := gf
    discount_factor := 1 / gf }

/-- The inner `npv` closure of `TimeValue.irr_bisect`, indexed by the position
`t` of the head cashflow: `sum(cf / (1+r)**t for t, cf in enumerate(...))`. -/
noncomputable def npvAux (r : ℝ) : ℕ → List ℝ → ℝ
  | _, [] => 0
  | t, cf :: rest => cf / (1 + r) ^ t + npvAux r (t + 1) rest

/-- `npv(r)` of `TimeValue.irr_bisect`: the enumeration starts at `t = 0`. -/
noncomputable def npv (cashflows : List ℝ) (r : ℝ) : ℝ :=
  npvAux r 0 cashflows

/-- The bisection loop of `TimeValue.irr_bisect`: `fuel` remaining iterations
of `for _ in range(max_iter)`; returns the midpoint when `|npv(mid)| < tol`,
narrows the bracket otherwise, and returns the final midpoint `(lo+hi)/2`
when the iterations are exhausted. -/
noncomputable def bisectLoop (f : ℝ → ℝ) (tol : ℝ) : ℕ → ℝ → ℝ → ℝ
  | 0, lo, hi => (lo + hi) / 2
  | fuel + 1, lo, hi =>
    let mid := (lo + hi) / 2
    let val := f mid
    if |val| < tol then mid
    else if f lo * val < 0 then bisectLoop f tol fuel lo mid
    else bisectLoop f tol fuel mid hi

/-- `TimeValue.irr_bisect` of `time_value.py`: `None` when the fixed domain
`(-0.99, 10.0)` does not bracket a sign change of the NPV, otherwise the
bisection result. -/
noncomputable def irr_bisect (cashflows : List ℝ) (tol : ℝ) (max_iter : ℕ) :
    Option ℝ :=
  let lo : ℝ := -0.99
  let hi : ℝ := 10
  if npv cashflows lo * npv cashflows hi > 0 then none
  else some (bisectLoop (npv cashflows) tol max_iter lo hi)

end TimeValue

/-- Mirrors the frozen dataclass `CompoundResult` of `compound_interest.py`. -/
structure CompoundResult where
  principal : ℝ
  rate : ℝ
  n : ℕ
  years : ℝ
  amount : ℝ
  interest_earned : ℝ
  effective_annual_rate : ℝ

namespace CompoundInterest

/-- `CompoundInterest.calculate` of `compound_interest.py`: discrete
compounding `A = P(1+r/n)^(nt)`; raises (returns `none`) when
`principal ≤ 0` or `n < 1`. -/
noncomputable def calculate (principal rate : ℝ) (n : ℕ) (years : ℝ) :
    Option CompoundResult :=
  if principal ≤ 0 then none
  else if n < 1 then none
  else
    let amount := principal * (1 + rate / n) ^ ((n : ℝ) * years)
    let eff_rate := (1 + rate / n) ^ (n : ℕ) - 1
    some ⟨principal, rate, n, years, amount, amount - principal, eff_rate⟩

/-- `CompoundInterest.doubling_time` of `compound_interest.py`:
`+inf` (here `⊤ : EReal`) when `rate ≤ 0`, else `ln 2 / (n·ln(1 + r/n))`. -/
noncomputable def doubling_time (rate : ℝ) (n : ℕ) : EReal :=
  if rate ≤ 0 then ⊤
  else ((Real.log 2 / (n * Real.log (1 + rate / n)) : ℝ) : EReal)

end CompoundInterest

/-- Mirrors the frozen dataclass `PercentageResult` of `percentage.py`. -/
structure PercentageResult where
  part : ℝ
  total : ℝ
  percentage : ℝ
  remaining : ℝ
  ratio : ℝ

namespace Percentage

/-- `Percentage.of` of `percentage.py`: raises (returns `none`) when
`total = 0`. -/
noncomputable def of (part total : ℝ) : Option PercentageResult :=
  if total = 0 then none
  else some
    { part := part
      total := total
      percentage := part / total * 100
      remaining := total - part
      ratio := part / total }

/-- `Percentage.find_total` of `percentage.py`: raises when `percent = 0`. -/
noncomputable def find_total (part percent : ℝ) : Option ℝ :=
  if percent = 0 then none else some (part * 100 / percent)

/-- `Percentage.change` of `percentage.py`: raises when `old = 0`. -/
noncomputable def change (old new : ℝ) : Option ℝ :=
  if old = 0 then none else some ((new - old) / |old| * 100)

/-- `Percentage.margin` of `percentage.py`: raises when `revenue = 0`. -/
noncomputable def margin (revenue cost : ℝ) : Option ℝ :=
  if revenue = 0 then none else some ((revenue - cost) / revenue * 100)

/-- `Percentage.markup` of `percentage.py`: raises when `cost = 0`. -/
noncomputable def markup (cost selling_price : ℝ) : Option ℝ :=
  if cost = 0 then none else some ((selling_price - cost) / cost * 100)

end Percentage

/-- Closed form of the exact remaining balance of a fully amortizing loan with
monthly rate `rm`, payment `M` and `j` payments still to make:
`M·((1+rm)^j − 1)/(rm·(1+rm)^j)`.  Used as the loop invariant for the
schedule loop of `loan.py`. -/
noncomputable def payoffBalance (rm M : ℝ) (j : ℕ) : ℝ :=
  M * ((1 + rm) ^ j - 1) / (rm * (1 + rm) ^ j)

/-! ## Helper lemmas -/

lemma npvAux_nonneg (r : ℝ) (hr : 0 < 1 + r) (cfs : List ℝ) :
    ∀ t : ℕ, (∀ cf ∈ cfs, 0 ≤ cf) → 0 ≤ TimeValue.npvAux r t cfs := by
  induction cfs with
  | nil => intro t _; simp [TimeValue.npvAux]
  | cons cf rest ih =>
    intro t h
    simp only [TimeValue.npvAux]
    have h1 : 0 ≤ cf / (1 + r) ^ t :=
      div_nonneg (h cf (List.mem_cons_self cf rest)) (pow_pos hr t).le
    have h2 := ih (t + 1) (fun c hc => h c (List.mem_cons_of_mem _ hc))
    linarith

lemma npvAux_pos (r : ℝ) (hr : 0 < 1 + r) (cf : ℝ) (rest : List ℝ) (t : ℕ)
    (h : ∀ c ∈ cf :: rest, 0 < c) : 0 < TimeValue.npvAux r t (cf :: rest) := by
  simp only [TimeValue.npvAux]
  have h1 : 0 < cf / (1 + r) ^ t :=
    div_pos (h cf (List.mem_cons_self _ _)) (pow_pos hr t)
  have h2 := npvAux_nonneg r hr rest (t + 1)
    (fun c hc => (h c (List.mem_cons_of_mem _ hc)).le)
  linarith

lemma bisectLoop_mem (f : ℝ → ℝ) (tol : ℝ) :
    ∀ (fuel : ℕ) (lo hi : ℝ), lo ≤ hi →
      lo ≤ TimeValue.bisectLoop f tol fuel lo hi ∧
        TimeValue.bisectLoop f tol fuel lo hi ≤ hi := by
  intro fuel
  induction fuel with
  | zero => intro lo hi h; simp only [TimeValue.bisectLoop]; constructor <;> linarith
  | succ fuel ih =>
    intro lo hi h
    simp only [TimeValue.bisectLoop]
    by_cases h1 : |f ((lo + hi) / 2)| < tol
    · simp only [if_pos h1]; constructor <;> linarith
    · simp only [if_neg h1]
      by_cases h2 : f lo * f ((lo + hi) / 2) < 0
      · simp only [if_pos h2]
        have hm := ih lo ((lo + hi) / 2) (by linarith)
        exact ⟨hm.1, by linarith [hm.2]⟩
      · simp only [if_neg h2]
        have hm := ih ((lo + hi) / 2) hi (by linarith)
        exact ⟨by linarith [hm.1], hm.2⟩

lemma payoff_zero (rm M : ℝ) : payoffBalance rm M 0 = 0 := by
  simp [payoffBalance]

lemma payoff_nonneg (rm M : ℝ) (hrm : 0 < rm) (hM : 0 ≤ M) (j : ℕ) :
    0 ≤ payoffBalance rm M j := by
  have hx : (1:ℝ) ≤ (1 + rm) ^ j := one_le_pow₀ (by linarith)
  exact div_nonneg (mul_nonneg hM (by linarith))
    (mul_pos hrm (pow_pos (by linarith) j)).le

lemma payoff_succ (rm M : ℝ) (hrm : 0 < rm) (j : ℕ) :
    payoffBalance rm M (j + 1) * (1 + rm) - M = payoffBalance rm M j := by
  have h1 : rm ≠ 0 := ne_of_gt hrm
  have h2 : (1:ℝ) + rm ≠ 0 := ne_of_gt (by linarith)
  have h3 : (1 + rm) ^ j ≠ 0 := pow_ne_zero j h2
  have h4 : (1 + rm) ^ (j + 1) ≠ 0 := pow_ne_zero _ h2
  simp only [payoffBalance]
  field_simp
  ring

lemma loanStep_payoff (rm M : ℝ) (hrm : 0 < rm) (hM : 0 ≤ M) (j : ℕ)
    (ci cp : ℝ) (k : ℕ) :
    LoanAmortization.loanStep rm ⟨M, payoffBalance rm M (j + 1), ci, cp⟩ k
      = (⟨k, M, M - payoffBalance rm M (j + 1) * rm,
            payoffBalance rm M (j + 1) * rm, payoffBalance rm M j,
            ci + payoffBalance rm M (j + 1) * rm,
            cp + (M - payoffBalance rm M (j + 1) * rm)⟩,
          ⟨M, payoffBalance rm M j,
            ci + payoffBalance rm M (j + 1) * rm,
            cp + (M - payoffBalance rm M (j + 1) * rm)⟩) := by
  have hj : 0 ≤ payoffBalance rm M j := payoff_nonneg rm M hrm hM j
  have hid : payoffBalance rm M (j + 1) * (1 + rm) - M = payoffBalance rm M j :=
    payoff_succ rm M hrm j
  have hmul : payoffBalance rm M (j + 1) * (1 + rm)
      = payoffBalance rm M (j + 1) + payoffBalance rm M (j + 1) * rm := by ring
  have hnc : ¬ (M - payoffBalance rm M (j + 1) * rm
      > payoffBalance rm M (j + 1)) := by linarith
  have hnf : ¬ (payoffBalance rm M (j + 1)
      - (M - payoffBalance rm M (j + 1) * rm) < 0) := by linarith
  have hbal : payoffBalance rm M (j + 1)
      - (M - payoffBalance rm M (j + 1) * rm) = payoffBalance rm M j := by
    linarith
  simp only [LoanAmortization.loanStep, if_neg hnc, if_neg hnf, hbal,
    if_neg (not_lt.mpr hj)]

lemma loanLoop_fst_succ (rm : ℝ) (s : LoanAmortization.LoanState) (k m : ℕ) :
    (LoanAmortization.loanLoop rm s k (m + 1)).1
      = (LoanAmortization.loanStep rm s k).1
        :: (LoanAmortization.loanLoop rm
            (LoanAmortization.loanStep rm s k).2 (k + 1) m).1 := by
  simp only [LoanAmortization.loanLoop]

lemma loanLoop_ne_nil (rm : ℝ) (s : LoanAmortization.LoanState) (k m : ℕ) :
    (LoanAmortization.loanLoop rm s k (m + 1)).1 ≠ [] := by
  rw [loanLoop_fst_succ]
  exact List.cons_ne_nil _ _

lemma getLast?_cons_of_ne_nil {α : Type} (a : α) (l : List α) (h : l ≠ []) :
    (a :: l).getLast? = l.getLast? := by
  cases l with
  | nil => exact absurd rfl h
  | cons b t => exact List.getLast?_cons_cons

lemma loanLoop_payoff_last (rm M : ℝ) (hrm : 0 < rm) (hM : 0 ≤ M) :
    ∀ (m k : ℕ) (ci cp : ℝ),
      (((LoanAmortization.loanLoop rm ⟨M, payoffBalance rm M (m + 1), ci, cp⟩
          k (m + 1)).1.getLast?).map (fun row => row.remaining_balance))
        = some 0 := by
  intro m
  induction m with
  | zero =>
    intro k ci cp
    simp only [LoanAmortization.loanLoop, loanStep_payoff rm M hrm hM 0 ci cp k]
    simp [payoff_zero]
  | succ m ih =>
    intro k ci cp
    rw [loanLoop_fst_succ]
    simp only [loanStep_payoff rm M hrm hM (m + 1) ci cp k]
    rw [getLast?_cons_of_ne_nil _ _ (loanLoop_ne_nil rm _ (k + 1) m)]
    exact ih (k + 1) (ci + payoffBalance rm M (m + 1 + 1) * rm)
      (cp + (M - payoffBalance rm M (m + 1 + 1) * rm))

lemma loanStep_sum (rm : ℝ) (s : LoanAmortization.LoanState) (k : ℕ) :
    (LoanAmortization.loanStep rm s k).1.payment
      = (LoanAmortization.loanStep rm s k).1.principal_part
        + (LoanAmortization.loanStep rm s k).1.interest_part := by
  simp only [LoanAmortization.loanStep]
  by_cases h : s.payment - s.balance * rm > s.balance
  · simp only [if_pos h]
  · simp only [if_neg h]
    ring

lemma loanLoop_payment_split (rm : ℝ) :
    ∀ (m : ℕ) (s : LoanAmortization.LoanState) (k : ℕ),
      ∀ row ∈ (LoanAmortization.loanLoop rm s k m).1,
        row.payment = row.principal_part + row.interest_part := by
  intro m
  induction m with
  | zero => intro s k row hrow; simp [LoanAmortization.loanLoop] at hrow
  | succ m ih =>
    intro s k row hrow
    simp only [LoanAmortization.loanLoop, List.mem_cons] at hrow
    rcases hrow with h | h
    · rw [h]; exact loanStep_sum rm s k
    · exact ih _ (k + 1) row h

lemma loanStep_invariant (rm : ℝ) (hrm : 0 ≤ rm)
    (s : LoanAmortization.LoanState) (k : ℕ)
    (hb : 0 ≤ s.balance) (hpb : s.balance * rm ≤ s.payment) :
    0 ≤ (LoanAmortization.loanStep rm s k).2.balance ∧
    (LoanAmortization.loanStep rm s k).2.balance ≤ s.balance ∧
    (LoanAmortization.loanStep rm s k).2.balance * rm
      ≤ (LoanAmortization.loanStep rm s k).2.payment ∧
    (LoanAmortization.loanStep rm s k).1.remaining_balance
      = (LoanAmortization.loanStep rm s k).2.balance := by
  have hbrm : 0 ≤ s.balance * rm := mul_nonneg hb hrm
  simp only [LoanAmortization.loanStep]
  by_cases hc : s.payment - s.balance * rm > s.balance
  · simp only [if_pos hc, sub_self]
    rw [if_neg (lt_irrefl (0:ℝ))]
    refine ⟨le_refl 0, hb, ?_, by trivial⟩
    rw [zero_mul]
    linarith
  · simp only [if_neg hc]
    push_neg at hc
    by_cases hf : s.balance - (s.payment - s.balance * rm) < 0
    · simp only [if_pos hf]
      refine ⟨le_refl 0, hb, ?_, by trivial⟩
      rw [zero_mul]
      linarith
    · simp only [if_neg hf]
      push_neg at hf
      have hb' : s.balance - (s.payment - s.balance * rm) ≤ s.balance := by
        linarith
      refine ⟨hf, hb', ?_, by trivial⟩
      have hmm := mul_le_mul_of_nonneg_right hb' hrm
      linarith

lemma loanLoop_balances (rm : ℝ) (hrm : 0 ≤ rm) :
    ∀ (m : ℕ) (s : LoanAmortization.LoanState) (k : ℕ),
      0 ≤ s.balance → s.balance * rm ≤ s.payment →
      (∀ row ∈ (LoanAmortization.loanLoop rm s k m).1,
          0 ≤ row.remaining_balance ∧ row.remaining_balance ≤ s.balance) ∧
      List.Chain' (fun a b => b.remaining_balance ≤ a.remaining_balance)
        (LoanAmortization.loanLoop rm s k m).1 := by
  intro m
  induction m with
  | zero =>
    intro s k _ _
    constructor
    · intro row hrow; simp [LoanAmortization.loanLoop] at hrow
    · simp [LoanAmortization.loanLoop]
  | succ m ih =>
    intro s k hb hpb
    obtain ⟨h0, hle, hinv, hrb⟩ := loanStep_invariant rm hrm s k hb hpb
    have hrest := ih (LoanAmortization.loanStep rm s k).2 (k + 1) h0 hinv
    constructor
    · intro row hrow
      simp only [LoanAmortization.loanLoop, List.mem_cons] at hrow
      rcases hrow with h | h
      · rw [h, hrb]; exact ⟨h0, hle⟩
      · have hmem := hrest.1 row h
        exact ⟨hmem.1, hmem.2.trans hle⟩
    · simp only [LoanAmortization.loanLoop]
      rw [List.chain'_cons']
      constructor
      · intro y hy
        have hymem := List.mem_of_mem_head? hy
        rw [hrb]
        exact (hrest.1 y hymem).2
      · exact hrest.2

lemma loanStep_cum (rm : ℝ) (s : LoanAmortization.LoanState) (k : ℕ) :
    (LoanAmortization.loanStep rm s k).1.cumulative_interest
        = s.cum_interest + (LoanAmortization.loanStep rm s k).1.interest_part ∧
    (LoanAmortization.loanStep rm s k).1.cumulative_principal
        = s.cum_principal + (LoanAmortization.loanStep rm s k).1.principal_part ∧
    (LoanAmortization.loanStep rm s k).2.cum_interest
        = (LoanAmortization.loanStep rm s k).1.cumulative_interest ∧
    (LoanAmortization.loanStep rm s k).2.cum_principal
        = (LoanAmortization.loanStep rm s k).1.cumulative_principal := by
  simp only [LoanAmortization.loanStep]
  refine ⟨?_, ?_, ?_, ?_⟩ <;> trivial

lemma loanLoop_cumulative (rm : ℝ) :
    ∀ (m : ℕ) (s : LoanAmortization.LoanState) (k : ℕ) (i : ℕ)
      (h : i < (LoanAmortization.loanLoop rm s k m).1.length),
      ((LoanAmortization.loanLoop rm s k m).1.get ⟨i, h⟩).cumulative_interest
          = s.cum_interest + (((LoanAmortization.loanLoop rm s k m).1.take (i + 1)).map
              (fun row => row.interest_part)).sum ∧
      ((LoanAmortization.loanLoop rm s k m).1.get ⟨i, h⟩).cumulative_principal
          = s.cum_principal + (((LoanAmortization.loanLoop rm s k m).1.take (i + 1)).map
              (fun row => row.principal_part)).sum := by
  intro m
  induction m with
  | zero => intro s k i h; simp [LoanAmortization.loanLoop] at h
  | succ m ih =>
    intro s k i h
    obtain ⟨hci, hcp, hsi, hsp⟩ := loanStep_cum rm s k
    have hl : (LoanAmortization.loanLoop rm s k (m + 1)).1
        = (LoanAmortization.loanStep rm s k).1
          :: (LoanAmortization.loanLoop rm
              (LoanAmortization.loanStep rm s k).2 (k + 1) m).1 := by
      simp only [LoanAmortization.loanLoop]
    match i with
    | 0 =>
      constructor
      · simp only [hl, List.get, List.take_succ_cons, List.take_zero,
          List.map_cons, List.map_nil, List.sum_cons, List.sum_nil, add_zero]
        exact hci
      · simp only [hl, List.get, List.take_succ_cons, List.take_zero,
          List.map_cons, List.map_nil, List.sum_cons, List.sum_nil, add_zero]
        exact hcp
    | i + 1 =>
      have h' : i < (LoanAmortization.loanLoop rm
          (LoanAmortization.loanStep rm s k).2 (k + 1) m).1.length := by
        rw [hl] at h
        simp only [List.length_cons] at h
        omega
      have hrec := ih (LoanAmortization.loanStep rm s k).2 (k + 1) i h'
      constructor
      · have hget : ((LoanAmortization.loanLoop rm s k (m + 1)).1.get
            ⟨i + 1, h⟩)
            = ((LoanAmortization.loanLoop rm
                (LoanAmortization.loanStep rm s k).2 (k + 1) m).1.get
                ⟨i, h'⟩) := by
          simp only [List.get_eq_getElem, hl, List.getElem_cons_succ]
        rw [hget, hrec.1, hl, List.take_succ_cons, List.map_cons,
          List.sum_cons, hsi, hci]
        ring
      · have hget : ((LoanAmortization.loanLoop rm s k (m + 1)).1.get
            ⟨i + 1, h⟩)
            = ((LoanAmortization.loanLoop rm
                (LoanAmortization.loanStep rm s k).2 (k + 1) m).1.get
                ⟨i, h'⟩) := by
          simp only [List.get_eq_getElem, hl, List.getElem_cons_succ]
        rw [hget, hrec.2, hl, List.take_succ_cons, List.map_cons,
          List.sum_cons, hsp, hcp]
        ring

lemma monthly_payment_bounds (P R : ℝ) (N : ℕ) (hP : 0 < P) (hR : 0 ≤ R)
    (hN : 1 ≤ N) (M : ℝ)
    (h : LoanAmortization.monthly_payment P R N = some M) :
    P * (R / 12) ≤ M ∧ 0 < M := by
  have h1 : ¬ P ≤ 0 := not_le.mpr hP
  have h2 : ¬ N < 1 := by omega
  have hN' : (0:ℝ) < (N : ℝ) := by
    have : (1:ℝ) ≤ (N : ℝ) := by exact_mod_cast hN
    linarith
  simp only [LoanAmortization.monthly_payment, if_neg h1, if_neg h2] at h
  by_cases h0 : R / 12 = 0
  · rw [if_pos h0] at h
    have hM : M = P / N := (Option.some.inj h).symm
    constructor
    · rw [h0, mul_zero, hM]
      exact (div_pos hP hN').le
    · rw [hM]; exact div_pos hP hN'
  · rw [if_neg h0] at h
    have hrm : 0 < R / 12 := lt_of_le_of_ne (by positivity) (Ne.symm h0)
    have hx1 : (1:ℝ) < (1 + R / 12) ^ N := one_lt_pow₀ (by linarith) (by omega)
    have hne : (1 + R / 12) ^ N - 1 ≠ 0 := ne_of_gt (by linarith)
    have hM : M = P * (R / 12 * (1 + R / 12) ^ N) / ((1 + R / 12) ^ N - 1) :=
      (Option.some.inj h).symm
    have hkey : P * (R / 12 * (1 + R / 12) ^ N) / ((1 + R / 12) ^ N - 1)
        = P * (R / 12) + P * (R / 12) / ((1 + R / 12) ^ N - 1) := by
      rw [div_eq_iff hne, add_mul, div_mul_cancel₀ _ hne]
      ring
    have hpos2 : 0 < P * (R / 12) / ((1 + R / 12) ^ N - 1) :=
      div_pos (mul_pos hP hrm) (by linarith)
    constructor
    · rw [hM, hkey]; linarith
    · rw [hM]
      exact div_pos (mul_pos hP (mul_pos hrm (by linarith))) (by linarith)

lemma schedule_some (P R : ℝ) (N : ℕ) (M : ℝ)
    (h : LoanAmortization.monthly_payment P R N = some M) :
    LoanAmortization.schedule P R N = some
      { principal := P
        annual_rate := R
        months := N
        monthly_payment := (((LoanAmortization.loanLoop (R / 12) ⟨M, P, 0, 0⟩
            1 N).1.head?).map (fun r => r.payment)).getD 0
        total_paid := ((LoanAmortization.loanLoop (R / 12) ⟨M, P, 0, 0⟩
            1 N).1.map (fun r => r.payment)).sum
        total_interest := (LoanAmortization.loanLoop (R / 12) ⟨M, P, 0, 0⟩
            1 N).2.cum_interest
        interest_ratio := if 0 < P then
            (LoanAmortization.loanLoop (R / 12) ⟨M, P, 0, 0⟩
              1 N).2.cum_interest / P
          else 0
        schedule := (LoanAmortization.loanLoop (R / 12) ⟨M, P, 0, 0⟩ 1 N).1 } := by
  simp only [LoanAmortization.schedule, h, Option.map_some']

/-! ## Claim theorems -/

/-- C5: `monthly_payment(principal, annual_rate, months)` with `principal > 0`
and `months ≥ 1` returns `principal / months` when `annual_rate/12 = 0`, and
otherwise the annuity formula `principal·rm·(1+rm)^months / ((1+rm)^months − 1)`
with `rm = annual_rate/12`. -/
theorem C5_monthly_payment_formula (principal annual_rate : ℝ) (months : ℕ)
    (hP : 0 < principal) (hm : 1 ≤ months) :
    (annual_rate / 12 = 0 →
      LoanAmortization.monthly_payment principal annual_rate months
        = some (principal / months)) ∧
    (annual_rate / 12 ≠ 0 →
      LoanAmortization.monthly_payment principal annual_rate months
        = some (principal *
            (annual_rate / 12 * (1 + annual_rate / 12) ^ months) /
            ((1 + annual_rate / 12) ^ months - 1))) := by
  have h1 : ¬ principal ≤ 0 := not_le.mpr hP
  have h2 : ¬ months < 1 := by omega
  constructor
  · intro h0
    simp only [LoanAmortization.monthly_payment, if_neg h1, if_neg h2, if_pos h0]
  · intro h0
    simp only [LoanAmortization.monthly_payment, if_neg h1, if_neg h2, if_neg h0]

/-- C5 witness: at `principal = 12`, `annual_rate = 0`, `months = 2` the
interest-free branch gives the payment `12 / 2`. -/
theorem C5_monthly_payment_formula_witness :
    (0:ℝ) < 12 ∧ 1 ≤ 2 ∧
      LoanAmortization.monthly_payment 12 0 2 = some ((12 : ℝ) / (2 : ℕ)) :=
  ⟨by norm_num, by norm_num,
    (C5_monthly_payment_formula 12 0 2 (by norm_num) (by norm_num)).1 (by norm_num)⟩

/-- C9: `doubling_time(rate, n)` returns `+∞` exactly when `rate ≤ 0`, and
`ln 2 / (n · ln(1 + rate/n))` when `rate > 0`. -/
theorem C9_doubling_time_closed_form (rate : ℝ) (n : ℕ) (hn : 1 ≤ n) :
    (rate ≤ 0 → CompoundInterest.doubling_time rate n = ⊤) ∧
    (0 < rate → CompoundInterest.doubling_time rate n =
      ((Real.log 2 / (n * Real.log (1 + rate / n)) : ℝ) : EReal)) := by
  constructor
  · intro h; simp [CompoundInterest.doubling_time, h]
  · intro h; simp [CompoundInterest.doubling_time, not_le.mpr h]

/-- C9 witness: `doubling_time (-1) 1 = ⊤` and `doubling_time 1 1` is the
closed form, both by the theorem at `n = 1`. -/
theorem C9_doubling_time_closed_form_witness :
    1 ≤ 1 ∧ CompoundInterest.doubling_time (-1) 1 = ⊤ ∧
      CompoundInterest.doubling_time 1 1 =
        ((Real.log 2 / ((1 : ℕ) * Real.log (1 + 1 / (1 : ℕ))) : ℝ) : EReal) :=
  ⟨le_refl 1,
    (C9_doubling_time_closed_form (-1) 1 (le_refl 1)).1 (by norm_num),
    (C9_doubling_time_closed_form 1 1 (le_refl 1)).2 (by norm_num)⟩

/-- C2 counterexample: at `amount = 100`, `rate = 1`, `years = 1` the record
returned by `analyze` has `present_value · growth_factor = 50 · 2 = 100`,
which differs from `future_value = 200`. -/
theorem C2_analyze_counterexample :
    ¬ ((TimeValue.analyze 100 1 1).present_value *
        (TimeValue.analyze 100 1 1).growth_factor
      = (TimeValue.analyze 100 1 1).future_value) := by
  simp only [TimeValue.analyze]
  rw [Real.rpow_one]
  norm_num

/-- C2 (amended): for `rate > -1`, `analyze` satisfies
`present_value · growth_factor = amount` and
`future_value = amount · growth_factor` (hence
`present_value · growth_factor² = future_value`). -/
theorem C2_analyze_growth_invariant (amount rate years : ℝ) (h : -1 < rate) :
    (TimeValue.analyze amount rate years).present_value *
        (TimeValue.analyze amount rate years).growth_factor = amount ∧
    (TimeValue.analyze amount rate years).future_value =
        amount * (TimeValue.analyze amount rate years).growth_factor := by
  have hgf : (0:ℝ) < (1 + rate) ^ years :=
    Real.rpow_pos_of_pos (by linarith) years
  refine ⟨?_, rfl⟩
  simp only [TimeValue.analyze]
  exact div_mul_cancel₀ amount (ne_of_gt hgf)

/-- C2 witness: the amended invariant at `amount = 100`, `rate = 1`,
`years = 1`. -/
theorem C2_analyze_growth_invariant_witness :
    (-1 : ℝ) < 1 ∧
    ((TimeValue.analyze 100 1 1).present_value *
        (TimeValue.analyze 100 1 1).growth_factor = 100 ∧
      (TimeValue.analyze 100 1 1).future_value =
        100 * (TimeValue.analyze 100 1 1).growth_factor) :=
  ⟨by norm_num, C2_analyze_growth_invariant 100 1 1 (by norm_num)⟩

/-- C8: for `rate > -1`, `present_value (future_value pv rate years) rate years`
recovers `pv` exactly. -/
theorem C8_pv_fv_round_trip (pv rate years : ℝ) (h : -1 < rate) :
    TimeValue.present_value (TimeValue.future_value pv rate years) rate years
      = pv := by
  have hgf : (0:ℝ) < (1 + rate) ^ years :=
    Real.rpow_pos_of_pos (by linarith) years
  simp only [TimeValue.present_value, TimeValue.future_value]
  exact mul_div_cancel_right₀ pv (ne_of_gt hgf)

/-- C8 witness: the round trip at `pv = 5`, `rate = 1`, `years = 1`. -/
theorem C8_pv_fv_round_trip_witness :
    (-1 : ℝ) < 1 ∧
      TimeValue.present_value (TimeValue.future_value 5 1 1) 1 1 = 5 :=
  ⟨by norm_num, C8_pv_fv_round_trip 5 1 1 (by norm_num)⟩

/-- C4: `irr_bisect` returns `none` exactly when
`npv(-0.99) · npv(10) > 0`, and in particular returns `none` on every
non-empty all-positive cashflow list. -/
theorem C4_irr_bisect_none_iff (cashflows : List ℝ) (tol : ℝ) (max_iter : ℕ) :
    (TimeValue.irr_bisect cashflows tol max_iter = none ↔
      TimeValue.npv cashflows (-0.99) * TimeValue.npv cashflows 10 > 0) ∧
    (cashflows ≠ [] → (∀ cf ∈ cashflows, 0 < cf) →
      TimeValue.irr_bisect cashflows tol max_iter = none) := by
  have hval : TimeValue.irr_bisect cashflows tol max_iter
      = if TimeValue.npv cashflows (-0.99) * TimeValue.npv cashflows 10 > 0
        then none
        else some (TimeValue.bisectLoop (TimeValue.npv cashflows) tol max_iter
          (-0.99) 10) := rfl
  have hiff : TimeValue.irr_bisect cashflows tol max_iter = none ↔
      TimeValue.npv cashflows (-0.99) * TimeValue.npv cashflows 10 > 0 := by
    rw [hval]
    by_cases h : TimeValue.npv cashflows (-0.99) * TimeValue.npv cashflows 10 > 0
    · simp [h]
    · simp [h]
  refine ⟨hiff, ?_⟩
  intro hne hpos
  rcases cashflows with _ | ⟨cf, rest⟩
  · exact absurd rfl hne
  · have hlo : 0 < TimeValue.npv (cf :: rest) (-0.99) :=
      npvAux_pos (-0.99) (by norm_num) cf rest 0 hpos
    have hhi : 0 < TimeValue.npv (cf :: rest) 10 :=
      npvAux_pos 10 (by norm_num) cf rest 0 hpos
    exact hiff.mpr (mul_pos hlo hhi)

/-- C4 witness: on the all-positive cashflow list `[1]` the search reports
"not found". -/
theorem C4_irr_bisect_none_iff_witness :
    TimeValue.irr_bisect [1] 1 0 = none :=
  (C4_irr_bisect_none_iff [1] 1 0).2 (by norm_num)
    (by intro cf hcf; rw [List.mem_singleton] at hcf; rw [hcf]; norm_num)

/-- C6: each core operation fails (`none`, the `ValueError`) exactly when its
precondition is violated: `calculate` when `principal ≤ 0` or `n < 1`,
`monthly_payment` and `schedule` when `principal ≤ 0` or `months < 1`,
`of` when `total = 0`, `find_total` when `percent = 0`, `change` when
`old = 0`, `margin` when `revenue = 0`, `markup` when `cost = 0`; and each
succeeds on every input satisfying its precondition. -/
theorem C6_invalid_argument_iff (p r : ℝ) (n : ℕ) (y : ℝ) (P R : ℝ) (m : ℕ)
    (part total percent old new revenue cost selling : ℝ) :
    ((CompoundInterest.calculate p r n y).isSome ↔ (0 < p ∧ 1 ≤ n)) ∧
    ((LoanAmortization.monthly_payment P R m).isSome ↔ (0 < P ∧ 1 ≤ m)) ∧
    ((LoanAmortization.schedule P R m).isSome ↔ (0 < P ∧ 1 ≤ m)) ∧
    ((Percentage.of part total).isSome ↔ total ≠ 0) ∧
    ((Percentage.find_total part percent).isSome ↔ percent ≠ 0) ∧
    ((Percentage.change old new).isSome ↔ old ≠ 0) ∧
    ((Percentage.margin revenue cost).isSome ↔ revenue ≠ 0) ∧
    ((Percentage.markup cost selling).isSome ↔ cost ≠ 0) := by
  have hcalc : (CompoundInterest.calculate p r n y).isSome ↔ (0 < p ∧ 1 ≤ n) := by
    by_cases hp : p ≤ 0
    · simp [CompoundInterest.calculate, hp, not_lt.mpr hp]
    · by_cases hn : n < 1
      · simp only [CompoundInterest.calculate, if_neg hp, if_pos hn]
        simp only [Option.isSome_none, Bool.false_eq_true, false_iff]
        intro hand
        omega
      · simp only [CompoundInterest.calculate, if_neg hp, if_neg hn]
        simp only [Option.isSome_some, true_iff]
        exact ⟨not_le.mp hp, by omega⟩
  have hmp : (LoanAmortization.monthly_payment P R m).isSome ↔ (0 < P ∧ 1 ≤ m) := by
    by_cases hp : P ≤ 0
    · simp [LoanAmortization.monthly_payment, hp, not_lt.mpr hp]
    · by_cases hm : m < 1
      · simp only [LoanAmortization.monthly_payment, if_neg hp, if_pos hm]
        simp only [Option.isSome_none, Bool.false_eq_true, false_iff]
        intro hand
        omega
      · simp only [LoanAmortization.monthly_payment, if_neg hp, if_neg hm]
        constructor
        · intro _; exact ⟨not_le.mp hp, by omega⟩
        · intro _
          by_cases h0 : R / 12 = 0 <;> simp [h0]
  have hs : (LoanAmortization.schedule P R m).isSome ↔ (0 < P ∧ 1 ≤ m) := by
    rw [← hmp]
    cases h : LoanAmortization.monthly_payment P R m <;>
      simp [LoanAmortization.schedule, h]
  refine ⟨hcalc, hmp, hs, ?_, ?_, ?_, ?_, ?_⟩
  · by_cases h : total = 0 <;> simp [Percentage.of, h]
  · by_cases h : percent = 0 <;> simp [Percentage.find_total, h]
  · by_cases h : old = 0 <;> simp [Percentage.change, h]
  · by_cases h : revenue = 0 <;> simp [Percentage.margin, h]
  · by_cases h : cost = 0 <;> simp [Percentage.markup, h]

/-- C7: `affordable_principal` inverts the annuity payment formula: for a
positive budget, non-negative rate and `months ≥ 1`,
`monthly_payment (affordable_principal B rate months) rate months = some B`,
and in the `rm = 0` edge case `affordable_principal` returns `B · months`. -/
theorem C7_affordable_principal_inverse (monthly_budget annual_rate : ℝ)
    (months : ℕ) (hB : 0 < monthly_budget) (hr : 0 ≤ annual_rate)
    (hm : 1 ≤ months) :
    LoanAmortization.monthly_payment
        (LoanAmortization.affordable_principal monthly_budget annual_rate months)
        annual_rate months = some monthly_budget ∧
    (annual_rate / 12 = 0 →
      LoanAmortization.affordable_principal monthly_budget annual_rate months
        = monthly_budget * months) := by
  have hm' : ¬ months < 1 := by omega
  have hN : (0:ℝ) < (months : ℝ) := by
    have : (1:ℝ) ≤ (months : ℝ) := by exact_mod_cast hm
    linarith
  by_cases h0 : annual_rate / 12 = 0
  · have hPval : LoanAmortization.affordable_principal monthly_budget
        annual_rate months = monthly_budget * months := by
      simp [LoanAmortization.affordable_principal, h0]
    refine ⟨?_, fun _ => hPval⟩
    rw [hPval]
    have hpos : ¬ monthly_budget * (months : ℝ) ≤ 0 :=
      not_le.mpr (mul_pos hB hN)
    simp only [LoanAmortization.monthly_payment, if_neg hpos, if_neg hm',
      if_pos h0, Option.some.injEq]
    field_simp
  · have hrm : 0 < annual_rate / 12 :=
      lt_of_le_of_ne (by positivity) (Ne.symm h0)
    have hx1 : (1:ℝ) < (1 + annual_rate / 12) ^ months :=
      one_lt_pow₀ (by linarith) (by omega)
    have hxpos : (0:ℝ) < (1 + annual_rate / 12) ^ months := by linarith
    have hPval : LoanAmortization.affordable_principal monthly_budget
        annual_rate months
        = monthly_budget * (((1 + annual_rate / 12) ^ months - 1) /
            (annual_rate / 12 * (1 + annual_rate / 12) ^ months)) := by
      simp [LoanAmortization.affordable_principal, h0]
    have hPpos : 0 < LoanAmortization.affordable_principal monthly_budget
        annual_rate months := by
      rw [hPval]
      exact mul_pos hB (div_pos (by linarith) (mul_pos hrm hxpos))
    refine ⟨?_, fun hh => absurd hh h0⟩
    simp only [LoanAmortization.monthly_payment, if_neg (not_le.mpr hPpos),
      if_neg hm', if_neg h0, Option.some.injEq]
    rw [hPval]
    have hd1 : annual_rate / 12 ≠ 0 := ne_of_gt hrm
    have hd2 : (1 + annual_rate / 12) ^ months ≠ 0 := ne_of_gt hxpos
    have hd3 : (1 + annual_rate / 12) ^ months - 1 ≠ 0 :=
      ne_of_gt (by linarith)
    rw [div_eq_iff hd3, mul_assoc, div_mul_cancel₀ _ (mul_ne_zero hd1 hd2)]

/-- C7 witness: at budget `1`, rate `0`, `2` months the affordable principal
is `1 · 2` and its monthly payment is `some 1`. -/
theorem C7_affordable_principal_inverse_witness :
    (0:ℝ) < 1 ∧ (0:ℝ) ≤ 0 ∧ 1 ≤ 2 ∧
    (LoanAmortization.monthly_payment
        (LoanAmortization.affordable_principal 1 0 2) 0 2 = some 1 ∧
      ((0:ℝ) / 12 = 0 →
        LoanAmortization.affordable_principal 1 0 2 = 1 * (2 : ℕ))) :=
  ⟨by norm_num, le_refl 0, by norm_num,
    C7_affordable_principal_inverse 1 0 2 (by norm_num) (le_refl 0)
      (by norm_num)⟩

/-- C1: for `principal > 0`, `annual_rate > 0` and `months ≥ 1`, the last row
of the schedule has `remaining_balance` exactly `0`: in exact arithmetic the
overshoot clamp never fires early, the final principal portion equals the
remaining balance, and the balance lands on `0`. -/
theorem C1_schedule_final_balance_zero (principal annual_rate : ℝ)
    (months : ℕ) (hP : 0 < principal) (hr : 0 < annual_rate)
    (hm : 1 ≤ months) :
    ∃ res, LoanAmortization.schedule principal annual_rate months = some res ∧
      ((res.schedule.getLast?).map (fun row => row.remaining_balance))
        = some 0 := by
  have h1 : ¬ principal ≤ 0 := not_le.mpr hP
  have h2 : ¬ months < 1 := by omega
  have hrm : 0 < annual_rate / 12 := div_pos hr (by norm_num)
  have h0 : ¬ (annual_rate / 12 = 0) := ne_of_gt hrm
  have hx1 : (1:ℝ) < (1 + annual_rate / 12) ^ months :=
    one_lt_pow₀ (by linarith) (by omega)
  set M := principal * (annual_rate / 12 * (1 + annual_rate / 12) ^ months)
      / ((1 + annual_rate / 12) ^ months - 1) with hMdef
  have hmp : LoanAmortization.monthly_payment principal annual_rate months
      = some M := by
    simp only [LoanAmortization.monthly_payment, if_neg h1, if_neg h2,
      if_neg h0]
  obtain ⟨hlow, hMpos⟩ := monthly_payment_bounds principal annual_rate months
    hP hr.le hm M hmp
  have hd3 : (1 + annual_rate / 12) ^ months - 1 ≠ 0 := ne_of_gt (by linarith)
  have hd4 : annual_rate / 12 * (1 + annual_rate / 12) ^ months ≠ 0 :=
    ne_of_gt (mul_pos hrm (by linarith))
  have hpayoff : payoffBalance (annual_rate / 12) M months = principal := by
    rw [hMdef]
    simp only [payoffBalance]
    rw [div_mul_cancel₀ _ hd3, mul_div_cancel_right₀ _ hd4]
  obtain ⟨m, rfl⟩ : ∃ m, months = m + 1 := ⟨months - 1, by omega⟩
  have hlast := loanLoop_payoff_last (annual_rate / 12) M hrm hMpos.le m 1 0 0
  rw [hpayoff] at hlast
  have hs := schedule_some principal annual_rate (m + 1) M hmp
  exact ⟨_, hs, hlast⟩

/-- C1 witness: a 1-month loan of `1` at annual rate `12` pays off exactly. -/
theorem C1_schedule_final_balance_zero_witness :
    (0:ℝ) < 1 ∧ (0:ℝ) < 12 ∧ 1 ≤ 1 ∧
    (∃ res, LoanAmortization.schedule 1 12 1 = some res ∧
      ((res.schedule.getLast?).map (fun row => row.remaining_balance))
        = some 0) :=
  ⟨by norm_num, by norm_num, le_refl 1,
    C1_schedule_final_balance_zero 1 12 1 (by norm_num) (by norm_num)
      (le_refl 1)⟩

/-- C3: every schedule row satisfies
`payment = principal_part + interest_part`; remaining balances are
non-negative and non-increasing; and the cumulative fields are the prefix
sums of the interest and principal portions. -/
theorem C3_schedule_row_invariants (principal annual_rate : ℝ) (months : ℕ)
    (res : LoanResult) (hP : 0 < principal) (hr : 0 ≤ annual_rate)
    (hm : 1 ≤ months)
    (hres : LoanAmortization.schedule principal annual_rate months
      = some res) :
    (∀ row ∈ res.schedule,
        row.payment = row.principal_part + row.interest_part) ∧
    (∀ row ∈ res.schedule, 0 ≤ row.remaining_balance) ∧
    List.Chain' (fun a b => b.remaining_balance ≤ a.remaining_balance)
      res.schedule ∧
    (∀ (i : ℕ) (h : i < res.schedule.length),
      (res.schedule.get ⟨i, h⟩).cumulative_interest
          = ((res.schedule.take (i + 1)).map
              (fun row => row.interest_part)).sum ∧
      (res.schedule.get ⟨i, h⟩).cumulative_principal
          = ((res.schedule.take (i + 1)).map
              (fun row => row.principal_part)).sum) := by
  cases hmp : LoanAmortization.monthly_payment principal annual_rate months with
  | none =>
    have hnone : LoanAmortization.schedule principal annual_rate months
        = none := by
      simp only [LoanAmortization.schedule, hmp, Option.map_none']
    rw [hnone] at hres
    exact absurd hres (by simp)
  | some M =>
    have hs := schedule_some principal annual_rate months M hmp
    rw [hs] at hres
    have hreseq := Option.some.inj hres
    have hrows : res.schedule
        = (LoanAmortization.loanLoop (annual_rate / 12) ⟨M, principal, 0, 0⟩
            1 months).1 := by
      rw [← hreseq]
    obtain ⟨hlow, hMpos⟩ := monthly_payment_bounds principal annual_rate months
      hP hr hm M hmp
    have hrm0 : 0 ≤ annual_rate / 12 := by positivity
    have hbal := loanLoop_balances (annual_rate / 12) hrm0 months
      ⟨M, principal, 0, 0⟩ 1 hP.le hlow
    refine ⟨?_, ?_, ?_, ?_⟩
    · rw [hrows]
      exact loanLoop_payment_split (annual_rate / 12) months
        ⟨M, principal, 0, 0⟩ 1
    · rw [hrows]
      intro row hrow
      exact (hbal.1 row hrow).1
    · rw [hrows]
      exact hbal.2
    · intro i h
      have h2 : i < (LoanAmortization.loanLoop (annual_rate / 12)
          ⟨M, principal, 0, 0⟩ 1 months).1.length := by
        rw [← hrows]
        exact h
      have hcum := loanLoop_cumulative (annual_rate / 12) months
        ⟨M, principal, 0, 0⟩ 1 i h2
      have hget : res.schedule.get ⟨i, h⟩
          = (LoanAmortization.loanLoop (annual_rate / 12)
              ⟨M, principal, 0, 0⟩ 1 months).1.get ⟨i, h2⟩ := by
        simp only [List.get_eq_getElem, hrows]
      constructor
      · rw [hget, hcum.1, hrows]
        simp
      · rw [hget, hcum.2, hrows]
        simp

/-- C3 witness: the interest-free loan of `12` over `2` months, whose
schedule is `[⟨1,6,6,0,6,0,6⟩, ⟨2,6,6,0,0,0,12⟩]`. -/
theorem C3_schedule_row_invariants_witness :
    ∃ res, LoanAmortization.schedule 12 0 2 = some res ∧
      ((∀ row ∈ res.schedule,
          row.payment = row.principal_part + row.interest_part) ∧
        (∀ row ∈ res.schedule, 0 ≤ row.remaining_balance) ∧
        List.Chain' (fun a b => b.remaining_balance ≤ a.remaining_balance)
          res.schedule ∧
        (∀ (i : ℕ) (h : i < res.schedule.length),
          (res.schedule.get ⟨i, h⟩).cumulative_interest
              = ((res.schedule.take (i + 1)).map
                  (fun row => row.interest_part)).sum ∧
          (res.schedule.get ⟨i, h⟩).cumulative_principal
              = ((res.schedule.take (i + 1)).map
                  (fun row => row.principal_part)).sum)) := by
  have heval : LoanAmortization.schedule 12 0 2 = some
      ⟨12, 0, 2, 6, 12, 0, 0,
        [⟨1, 6, 6, 0, 6, 0, 6⟩, ⟨2, 6, 6, 0, 0, 0, 12⟩]⟩ := by
    norm_num [LoanAmortization.schedule, LoanAmortization.monthly_payment,
      LoanAmortization.loanLoop, LoanAmortization.loanStep]
  exact ⟨_, heval,
    C3_schedule_row_invariants 12 0 2 _ (by norm_num) (le_refl 0)
      (by norm_num) heval⟩

/-- C10: every numeric rate returned by `irr_bisect` lies in the closed
search domain `[-0.99, 10]`. -/
theorem C10_irr_bisect_result_in_domain (cashflows : List ℝ) (tol : ℝ)
    (max_iter : ℕ) (r : ℝ) (htol : 0 < tol)
    (h : TimeValue.irr_bisect cashflows tol max_iter = some r) :
    -0.99 ≤ r ∧ r ≤ 10 := by
  have hval : TimeValue.irr_bisect cashflows tol max_iter
      = if TimeValue.npv cashflows (-0.99) * TimeValue.npv cashflows 10 > 0
        then none
        else some (TimeValue.bisectLoop (TimeValue.npv cashflows) tol max_iter
          (-0.99) 10) := rfl
  rw [hval] at h
  by_cases hc : TimeValue.npv cashflows (-0.99) * TimeValue.npv cashflows 10 > 0
  · rw [if_pos hc] at h
    exact absurd h (by simp)
  · rw [if_neg hc] at h
    have hr := Option.some.inj h
    rw [← hr]
    exact bisectLoop_mem (TimeValue.npv cashflows) tol max_iter (-0.99) 10
      (by norm_num)

/-- C10 witness: with `max_iter = 0` on `[-1, 1]` the search returns the
midpoint `(-0.99 + 10)/2`, which lies in the domain. -/
theorem C10_irr_bisect_result_in_domain_witness :
    (0:ℝ) < 1 ∧ TimeValue.irr_bisect [-1, 1] 1 0 = some ((-0.99 + 10) / 2) ∧
      -(0.99 : ℝ) ≤ (-0.99 + 10) / 2 ∧ ((-0.99 + 10) / 2 : ℝ) ≤ 10 := by
  have heq : TimeValue.irr_bisect [-1, 1] 1 0 = some ((-0.99 + 10) / 2) := by
    simp only [TimeValue.irr_bisect, TimeValue.npv, TimeValue.npvAux,
      TimeValue.bisectLoop]
    norm_num
  have hb := C10_irr_bisect_result_in_domain [-1, 1] 1 0 ((-0.99 + 10) / 2)
    (by norm_num) heq
  exact ⟨by norm_num, heq, by linarith [hb.1], hb.2⟩

end FinancialToolkits
